import Mathlib

/-!
Verification of the taskplanner core (src/core/github.js, src/core/ghcli.js,
src/types/index.js) against its natural-language specification.

The JavaScript core is shallowly embedded: JS strings become lists of
characters, the metadata codec, label mapper, issue-to-task normalizer,
list/sort pipeline, My Day partition, board grouping and analytics are
translated as executable Lean functions, and the remote issue store (reached
through the gh CLI) is modelled at the port interface the spec describes.
-/

namespace TaskPlanner

/-- Strings of the JavaScript source are modelled as lists of characters. -/
abbrev Str := List Char

/-- Characters removed by `String.prototype.trim` (the ASCII ones; the
further Unicode white space code points do not occur in the repository's
data). -/
def isJsSpace (c : Char) : Bool :=
  c = ' ' || c = '\t' || c = '\n' || c = '\r' || c = '\x0b' || c = '\x0c'

/-- Models `s.trim()`. -/
def jsTrim (s : Str) : Str :=
  ((s.dropWhile isJsSpace).reverse.dropWhile isJsSpace).reverse

/-- Models `s.split('\n')`. -/
def splitOnNl : Str → List Str
  | [] => [[]]
  | c :: rest =>
    let r := splitOnNl rest
    if c = '\n' then [] :: r
    else
      match r with
      | h :: t => (c :: h) :: t
      | [] => [[c]]

/-- Nonempty all-digit string. -/
def isDigitsNonempty (s : Str) : Bool := !s.isEmpty && s.all (·.isDigit)

/-- Drops one leading sign character, as the JS numeric grammar allows. -/
def stripOneSign : Str → Str
  | [] => []
  | c :: rest => if c = '+' || c = '-' then rest else c :: rest

/-- Accepts the empty string or an exponent part `e|E (sign)? digits`. -/
def isExpTailOrEmpty : Str → Bool
  | [] => true
  | c :: rest => (c = 'e' || c = 'E') && isDigitsNonempty (stripOneSign rest)

/-- Unsigned decimal literal of the JS `Number(string)` grammar:
`digits ('.' digits?)? exp?` or `'.' digits exp?`. -/
def isDecLit (s : Str) : Bool :=
  let ip := s.takeWhile (·.isDigit)
  let rest := s.dropWhile (·.isDigit)
  match rest with
  | [] => !ip.isEmpty
  | c :: r2 =>
    if c = '.' then
      let frac := r2.takeWhile (·.isDigit)
      let rest2 := r2.dropWhile (·.isDigit)
      (!ip.isEmpty || !frac.isEmpty) && isExpTailOrEmpty rest2
    else !ip.isEmpty && isExpTailOrEmpty rest

def isHexDigitChar (c : Char) : Bool :=
  c.isDigit || ('a' ≤ c && c ≤ 'f') || ('A' ≤ c && c ≤ 'F')

def isOctDigitChar (c : Char) : Bool := '0' ≤ c && c ≤ '7'

def isBinDigitChar (c : Char) : Bool := c = '0' || c = '1'

/-- Radix-prefixed literals `0x…`, `0o…`, `0b…` accepted by `Number(string)`
(no sign allowed in front of these). -/
def isRadixLit (s : Str) : Bool :=
  match s with
  | c0 :: c1 :: rest =>
    c0 = '0' &&
      (((c1 = 'x' || c1 = 'X') && !rest.isEmpty && rest.all isHexDigitChar) ||
       ((c1 = 'o' || c1 = 'O') && !rest.isEmpty && rest.all isOctDigitChar) ||
       ((c1 = 'b' || c1 = 'B') && !rest.isEmpty && rest.all isBinDigitChar))
  | _ => false

/-- Models `!isNaN(value)` for a trimmed nonempty string `value`: whether
`Number(value)` parses (decimal literal with optional sign, `Infinity`,
or a radix-prefixed literal). -/
def jsIsNumeric (s : Str) : Bool :=
  isRadixLit s ||
    (let t := stripOneSign s
     t = "Infinity".toList || isDecLit t)

/-- Value of a nonempty all-digit string. -/
def natOfDigits (s : Str) : Nat :=
  s.foldl (fun a c => a * 10 + (c.toNat - 48)) 0

/-- Recognizes a plain decimal-integer literal (optional sign, digits only)
and returns its exact value; other numeric shapes are handled opaquely. -/
def decIntLit : Str → Option Int
  | [] => none
  | c :: rest =>
    if c = '-' then
      if isDigitsNonempty rest then some (-(natOfDigits rest : Int)) else none
    else if c = '+' then
      if isDigitsNonempty rest then some ((natOfDigits rest : Int)) else none
    else if isDigitsNonempty (c :: rest) then some ((natOfDigits (c :: rest) : Int))
    else none

/-- Parsed metadata scalars.  JS is dynamically typed; the codec produces
booleans, `null`, numbers, strings, and (on the encoding side) arrays of
strings.  Numbers that are written as plain decimal-integer literals are kept
exactly (`vInt`); any other numeric literal (decimals, exponents, radix
prefixes) is abstracted by its source text (`vNum`) — no theorem below
depends on the float value of such a literal. -/
inductive YamlValue where
  | vBool (b : Bool)
  | vNull
  | vInt (n : Int)
  | vNum (s : Str)
  | vStr (s : Str)
  | vList (xs : List Str)
deriving DecidableEq

/-- Decimal rendering of an integer, as JS template interpolation produces
for integral numbers. -/
def intToStr (n : Int) : Str := (toString n).toList

/-- Models the `${value}` interpolation (and `value.join(', ')` for arrays)
performed by `buildYamlFrontMatter`. -/
def renderValue : YamlValue → Str
  | .vBool b => if b then "true".toList else "false".toList
  | .vNull => "null".toList
  | .vInt n => intToStr n
  | .vNum s => s
  | .vStr s => s
  | .vList xs => List.intercalate (", ".toList) xs

/-- Metadata maps are JS objects: association lists with distinct keys in
insertion order (`Object.entries` iterates in that order). -/
abbrev Meta := List (Str × YamlValue)

def metaHasKey (m : Meta) (k : Str) : Bool := m.any (·.1 = k)

/-- Models `meta[key] = value` on a JS object: overwrite in place if the key
exists, otherwise append. -/
def insertJs (m : Meta) (k : Str) (v : YamlValue) : Meta :=
  if metaHasKey m k then m.map (fun p => if p.1 = k then (k, v) else p)
  else m ++ [(k, v)]

def metaLookup (m : Meta) (k : Str) : Option YamlValue :=
  (m.find? (·.1 = k)).map (·.2)

/-- Scalar coercion of `parseYamlFrontMatter`, applied to the trimmed value:
`"true"/"false"` to booleans, `"null"` or the empty string to null, numeric
strings to numbers, anything else kept as a string. -/
def coerceScalar (v : Str) : YamlValue :=
  if v = "true".toList then .vBool true
  else if v = "false".toList then .vBool false
  else if v = "null".toList || v = [] then .vNull
  else if jsIsNumeric v then
    match decIntLit v with
    | some n => .vInt n
    | none => .vNum v
  else .vStr v

/-- One iteration of the line loop: `key: value` split at the first colon
(lines without a colon are skipped), both sides trimmed. -/
def parseMetaLine (m : Meta) (line : Str) : Meta :=
  match line.findIdx? (· = ':') with
  | none => m
  | some idx =>
    let key := jsTrim (line.take idx)
    let value := jsTrim (line.drop (idx + 1))
    insertJs m key (coerceScalar value)

def parseMetaLines (lines : List Str) : Meta := lines.foldl parseMetaLine []

/-- Splits `s` at the first occurrence of the pattern, returning the parts
before and after it; `none` if the pattern does not occur. -/
def splitFirstSub (pat : Str) : Str → Option (Str × Str)
  | [] => none
  | c :: rest =>
    if pat.isPrefixOf (c :: rest) then some ([], (c :: rest).drop pat.length)
    else
      match splitFirstSub pat rest with
      | some (a, b) => some (c :: a, b)
      | none => none

/-- Models the regular expression match
`body.match(/^---\n([\s\S]*?)\n---\n?([\s\S]*)$/)`: the leading delimiter
line, then the lazily matched group up to the first `\n---`, then an optional
newline, then the rest. -/
def matchFrontMatter (body : Str) : Option (Str × Str) :=
  if ("---\n".toList).isPrefixOf body then
    match splitFirstSub ("\n---".toList) (body.drop 4) with
    | some (g1, rest) =>
      some (g1, if ("\n".toList).isPrefixOf rest then rest.drop 1 else rest)
    | none => none
  else none

/-- Embeds `parseYamlFrontMatter` of src/core/github.js: empty body gives an
empty map and description; a body not matching the front-matter pattern is
returned whole as the description; otherwise the delimited lines are parsed
as `key: value` pairs and the remainder is trimmed. -/
def parseYamlFrontMatter (body : Str) : Meta × Str :=
  if body.isEmpty then ([], [])
  else
    match matchFrontMatter body with
    | none => ([], body)
    | some (g1, g2) => (parseMetaLines (splitOnNl g1), jsTrim g2)

/-- Embeds `buildYamlFrontMatter` of src/core/github.js: delimiter line, one
`key: value` line per entry (arrays joined with `", "`), delimiter line, a
blank line, and the description, all joined with newlines. -/
def buildYamlFrontMatter (meta : Meta) (description : Str) : Str :=
  List.intercalate ("\n".toList)
    (("---".toList) ::
      meta.map (fun p => p.1 ++ (": ".toList) ++ renderValue p.2) ++
      [("---".toList), [], description])

/-- STATUS_LABELS of src/types/index.js, in enum declaration order. -/
def statusLabels : List (Str × Str) :=
  [(("todo".toList), ("tp:todo".toList)),
   (("in-progress".toList), ("tp:in-progress".toList)),
   (("done".toList), ("tp:done".toList)),
   (("blocked".toList), ("tp:blocked".toList))]

/-- PRIORITY_LABELS of src/types/index.js, in enum declaration order. -/
def priorityLabels : List (Str × Str) :=
  [(("urgent".toList), ("tp:urgent".toList)),
   (("high".toList), ("tp:high".toList)),
   (("medium".toList), ("tp:medium".toList)),
   (("low".toList), ("tp:low".toList))]

/-- PRIORITY_ORDER of src/types/index.js. -/
def priorityOrder : List (Str × Nat) :=
  [(("urgent".toList), 0), (("high".toList), 1),
   (("medium".toList), 2), (("low".toList), 3)]

/-- A raw label as the two transports deliver it: either a plain string
(gh CLI label filter path) or an object with a `name` field (REST / gh JSON
path); `typeof l === 'string' ? l : l.name`. -/
inductive GhLabel where
  | plain (s : Str)
  | named (name : Str)
deriving DecidableEq

def labelName : GhLabel → Str
  | .plain s => s
  | .named n => n

def labelNames (ls : List GhLabel) : List Str := ls.map labelName

/-- Embeds `getStatusFromLabels`: scan STATUS_LABELS in declaration order,
return the first status whose label occurs; default `'todo'`. -/
def getStatusFromLabels (ls : List GhLabel) : Str :=
  match statusLabels.find? (fun p => (labelNames ls).contains p.2) with
  | some p => p.1
  | none => "todo".toList

/-- Embeds `getPriorityFromLabels`: same scan over PRIORITY_LABELS; default
`'medium'`. -/
def getPriorityFromLabels (ls : List GhLabel) : Str :=
  match priorityLabels.find? (fun p => (labelNames ls).contains p.2) with
  | some p => p.1
  | none => "medium".toList

/-- Embeds `getUserLabels`: every label name that does not start with the
`tp:` prefix. -/
def getUserLabels (ls : List GhLabel) : List Str :=
  (labelNames ls).filter (fun n => !(("tp:".toList).isPrefixOf n))

/-- A raw issue record as either transport delivers it, with both timestamp
spellings and both URL spellings present as optional fields. -/
structure GhIssue where
  number : Nat
  title : Str
  body : Option Str
  labels : List GhLabel
  assignees : List Str
  assignee : Option Str
  milestoneNumber : Option Nat
  milestoneTitle : Option Str
  state : Str
  stateReason : Option Str
  createdAt : Option Str
  created_at : Option Str
  updatedAt : Option Str
  updated_at : Option Str
  html_url : Option Str
  url : Option Str
deriving DecidableEq

/-- JS truthiness of a metadata value.  A `vNum` holds a non-integer numeric
literal; the zero-valued ones (`"0.0"`, `".0"`, …) are never produced by the
encoder, so the abstraction takes `vNum` as truthy — no theorem below
depends on it. -/
def jsTruthy : YamlValue → Bool
  | .vBool b => b
  | .vNull => false
  | .vInt n => !(n == 0)
  | .vNum _ => true
  | .vStr s => !s.isEmpty
  | .vList _ => true

/-- First operand of an `a || b || null` chain over optional strings that is
present and nonempty (the empty string is falsy). -/
def firstNonemptyStr : List (Option Str) → Option Str
  | [] => none
  | none :: rest => firstNonemptyStr rest
  | some s :: rest => if s.isEmpty then firstNonemptyStr rest else some s

/-- Canonical in-memory task, one per issue (the shape `issueToTask`
returns).  The hour/tag/parent metadata fields keep their dynamic
`YamlValue` type, as the JS object does. -/
structure Task where
  id : Nat
  title : Str
  body : Str
  status : Str
  priority : Str
  due_date : Option Str
  labels : List Str
  assignee : Option Str
  sprint_id : Option Nat
  sprint_name : Option Str
  my_day : Bool
  estimated_hours : YamlValue
  actual_hours : YamlValue
  tags : YamlValue
  parent_task : Option YamlValue
  created_at : Str
  updated_at : Str
  html_url : Str
deriving DecidableEq

/-- Normalization at the top of `issueToTask`:
`(issue.labels || []).map(l => typeof l === 'string' ? { name: l } : l)`. -/
def normalizeLabels (ls : List GhLabel) : List GhLabel :=
  ls.map (fun l => match l with | .plain s => .named s | .named n => .named n)

/-- Models `meta.k || dflt` for a metadata field. -/
def metaTruthyOr (m : Meta) (k : Str) (dflt : YamlValue) : YamlValue :=
  match metaLookup m k with
  | some v => if jsTruthy v then v else dflt
  | none => dflt

/-- Models `meta.due_date || null`.  A truthy non-string value is abstracted
by its string rendering (downstream code only compares the field against
date strings). -/
def metaDueDate (m : Meta) : Option Str :=
  match metaLookup m ("due_date".toList) with
  | some v => if jsTruthy v then some (renderValue v) else none
  | none => none

/-- Models `meta.my_day || false`.  The JS expression keeps any truthy value;
every downstream use is in boolean position, so the Boolean is faithful. -/
def metaMyDay (m : Meta) : Bool :=
  match metaLookup m ("my_day".toList) with
  | some v => jsTruthy v
  | none => false

/-- Embeds `issueToTask` of src/core/github.js. -/
def issueToTask (issue : GhIssue) : Task :=
  let pd := parseYamlFrontMatter (issue.body.getD [])
  let meta := pd.1
  let labels := normalizeLabels issue.labels
  { id := issue.number
    title := issue.title
    body := pd.2
    status := getStatusFromLabels labels
    -- the source's `|| meta.priority || 'medium'` fallbacks never fire:
    -- getPriorityFromLabels always returns a nonempty name
    priority := getPriorityFromLabels labels
    due_date := metaDueDate meta
    labels := getUserLabels labels
    assignee := firstNonemptyStr [issue.assignees.head?, issue.assignee]
    sprint_id :=
      match issue.milestoneNumber with
      | some n => if n = 0 then none else some n
      | none => none
    sprint_name :=
      match issue.milestoneTitle with
      | some t => if t.isEmpty then none else some t
      | none => none
    my_day := metaMyDay meta
    estimated_hours := metaTruthyOr meta ("estimated_hours".toList) (.vInt 0)
    actual_hours := metaTruthyOr meta ("actual_hours".toList) (.vInt 0)
    tags := metaTruthyOr meta ("tags".toList) (.vList [])
    parent_task :=
      match metaLookup meta ("parent_task".toList) with
      | some v => if jsTruthy v then some v else none
      | none => none
    created_at := (firstNonemptyStr [issue.createdAt, issue.created_at]).getD []
    updated_at := (firstNonemptyStr [issue.updatedAt, issue.updated_at]).getD []
    html_url := (firstNonemptyStr [issue.html_url, issue.url]).getD [] }

/-- PRIORITY_ORDER[p] ?? 3, the primary sort key. -/
def priorityRank (p : Str) : Nat :=
  match priorityOrder.find? (·.1 = p) with
  | some q => q.2
  | none => 3

/-- Code-unit lexicographic three-way comparison, modelling
`localeCompare` on the ASCII date strings the repository stores. -/
def cmpStr : Str → Str → Int
  | [], [] => 0
  | [], _ :: _ => -1
  | _ :: _, [] => 1
  | a :: as, b :: bs =>
    if a = b then cmpStr as bs else if a.toNat < b.toNat then -1 else 1

/-- Secondary key of the comparator: both dated use `localeCompare`, a dated
task comes before an undated one, two undated tasks tie. -/
def dueCmp : Option Str → Option Str → Int
  | some da, some db => cmpStr da db
  | some _, none => -1
  | none, some _ => 1
  | none, none => 0

/-- Embeds the `listTasks` sort comparator (priority rank, then due date). -/
def taskCmp (a b : Task) : Int :=
  if (priorityRank a.priority : Int) ≠ (priorityRank b.priority : Int) then
    (priorityRank a.priority : Int) - (priorityRank b.priority : Int)
  else dueCmp a.due_date b.due_date

def taskLe (a b : Task) : Prop := taskCmp a b ≤ 0

instance : DecidableRel taskLe := fun a b =>
  inferInstanceAs (Decidable (taskCmp a b ≤ 0))

/-- Embeds `tasks.sort(comparator)`.  `Array.prototype.sort` is stable and
the comparator induces a total preorder, which determines the output
uniquely; it is modelled by the stable insertion sort. -/
def sortTasks (ts : List Task) : List Task := List.insertionSort taskLe ts

/-- The local post-fetch filter of `listTasks`:
`issue.labels?.some(l => l.name?.startsWith('tp:'))` — note a plain-string
label has no `.name` and never satisfies this. -/
def issueHasTpLabel (issue : GhIssue) : Bool :=
  issue.labels.any (fun l =>
    match l with
    | .named n => ("tp:".toList).isPrefixOf n
    | .plain _ => false)

/-- Local pipeline of `listTasks` after the fetch: keep records carrying a
`tp:`-prefixed label, normalize, optionally filter on the my-day flag, and
apply the canonical sort. -/
def listTasksLocal (issues : List GhIssue) (filterMyDay : Bool) : List Task :=
  let tasks := (issues.filter issueHasTpLabel).map issueToTask
  let tasks2 := if filterMyDay then tasks.filter (·.my_day) else tasks
  sortTasks tasks2

/-- Truthiness-guarded `t.due_date && t.due_date < today`. -/
def dueTruthyBefore (t : Task) (today : Str) : Bool :=
  match t.due_date with
  | some d => !d.isEmpty && cmpStr d today < 0
  | none => false

/-- Result shape of `getMyDayTasks`. -/
structure MyDayView where
  my_day : List Task
  due_today : List Task
  overdue : List Task
  in_progress : List Task
  total_focus : Nat
deriving DecidableEq

/-- Embeds `getMyDayTasks` (its pure part: the source fetches the list and
takes today's date from the clock; both are parameters here). -/
def getMyDayTasks (tasks : List Task) (today : Str) : MyDayView :=
  let myDayTasks := tasks.filter (fun t => t.my_day && !(t.status == "done".toList))
  let dueToday := tasks.filter (fun t =>
    t.due_date == some today && !(t.status == "done".toList) && !t.my_day)
  let overdueTasks := tasks.filter (fun t =>
    dueTruthyBefore t today && !(t.status == "done".toList) && !t.my_day)
  let inProgress := tasks.filter (fun t =>
    t.status == "in-progress".toList && !t.my_day && !(t.due_date == some today))
  { my_day := myDayTasks
    due_today := dueToday
    overdue := overdueTasks
    in_progress := inProgress
    total_focus := myDayTasks.length + dueToday.length + overdueTasks.length }

/-- Result shape of `getBoardData`: the four kanban columns, in the object
order of the source. -/
structure BoardColumns where
  todo : List Task
  in_progress : List Task
  blocked : List Task
  done : List Task
deriving DecidableEq

/-- One iteration of the board loop: `if (columns[task.status])
columns[task.status].tasks.push(task)` — a task whose status is none of the
four keys is dropped. -/
def boardStep (b : BoardColumns) (t : Task) : BoardColumns :=
  if t.status = "todo".toList then { b with todo := b.todo ++ [t] }
  else if t.status = "in-progress".toList then
    { b with in_progress := b.in_progress ++ [t] }
  else if t.status = "blocked".toList then { b with blocked := b.blocked ++ [t] }
  else if t.status = "done".toList then { b with done := b.done ++ [t] }
  else b

/-- Embeds the grouping loop of `getBoardData` over an already-fetched task
list. -/
def boardColumns (tasks : List Task) : BoardColumns :=
  tasks.foldl boardStep ⟨[], [], [], []⟩

/-- Models `m[k] = (m[k] || 0) + 1` on a JS counting object. -/
def bumpCount (m : List (Str × Nat)) (k : Str) : List (Str × Nat) :=
  if m.any (·.1 = k) then m.map (fun p => if p.1 = k then (p.1, p.2 + 1) else p)
  else m ++ [(k, 1)]

def countLookup (m : List (Str × Nat)) (k : Str) : Nat :=
  match m.find? (·.1 = k) with
  | some p => p.2
  | none => 0

def initStatusCounts : List (Str × Nat) :=
  [(("todo".toList), 0), (("in-progress".toList), 0),
   (("done".toList), 0), (("blocked".toList), 0)]

def initPriorityCounts : List (Str × Nat) :=
  [(("urgent".toList), 0), (("high".toList), 0),
   (("medium".toList), 0), (("low".toList), 0)]

/-- Models `task.assignee || 'Unassigned'`. -/
def assigneeKey (t : Task) : Str :=
  match t.assignee with
  | some a => if a.isEmpty then "Unassigned".toList else a
  | none => "Unassigned".toList

/-- Result shape of `getAnalytics` (without the echoed task list). -/
structure Analytics where
  total : Nat
  completed : Nat
  completionRate : Nat
  overdue : Nat
  statusCounts : List (Str × Nat)
  priorityCounts : List (Str × Nat)
  assigneeCounts : List (Str × Nat)
deriving DecidableEq

/-- Number of binary digits of `n` (`⌊log2 n⌋ + 1` for positive `n`, 0 for
0), written with explicit fuel so that it reduces in the kernel. -/
def bitLenAux : Nat → Nat → Nat
  | 0, _ => 0
  | fuel + 1, n => if n = 0 then 0 else bitLenAux fuel (n / 2) + 1

def bitLen (n : Nat) : Nat := bitLenAux n n

/-- Round-to-nearest of `a / b` for `b > 0`, ties to even: the rounding mode
of every IEEE-754 binary64 arithmetic operation in JS. -/
def rneDiv (a b : Nat) : Nat :=
  if 2 * (a % b) < b then a / b
  else if b < 2 * (a % b) then a / b + 1
  else if (a / b) % 2 = 0 then a / b else a / b + 1

/-- Shared tail of `fdiv64`, given the quotient normalized to
`A / B ∈ [1, 2)` and its binary magnitude `e` (so `c / t = (A/B)·2^e`):
rounds to 53 significant bits at the ulp `2^(e-52)` of that magnitude, or at
the fixed subnormal ulp `2^(-1074)` when the magnitude is below the normal
range.  The mantissa is not re-normalized after a rounding carry, which
leaves the value unchanged. -/
def fdiv64Core (A B : Nat) (e : Int) (c t : Nat) : Nat × Int :=
  if e < -1022 then (rneDiv (c * 2 ^ 1074) t, -1074)
  else (rneDiv (A * 2 ^ 52) B, e - 52)

/-- IEEE-754 binary64 result of the JS division `c / t` (`t > 0`), as an
exact dyadic value: a mantissa and a binary exponent.  Overflow to infinity
is not modelled: the analytics call site always has `c ≤ t`, so the quotient
is at most 1. -/
def fdiv64 (c t : Nat) : Nat × Int :=
  if c = 0 then (0, 0)
  else if t * 2 ^ bitLen c ≤ c * 2 ^ bitLen t then
    fdiv64Core (c * 2 ^ bitLen t) (t * 2 ^ bitLen c)
      ((bitLen c : Int) - bitLen t) c t
  else
    fdiv64Core (2 * (c * 2 ^ bitLen t)) (t * 2 ^ bitLen c)
      ((bitLen c : Int) - bitLen t - 1) c t

/-- IEEE-754 binary64 result of the JS multiplication `x * 100` for a
nonnegative double `x = m·2^g`: the product's mantissa is rounded back to 53
significant bits (exact when it already fits). -/
def fmul100 (m : Nat) (g : Int) : Nat × Int :=
  let m100 := m * 100
  let s := bitLen m100 - 53
  (rneDiv m100 (2 ^ s), g + s)

/-- Models `Math.round` on the exact value `m·2^g` of a nonnegative double:
the nearest integer, ties toward positive infinity (the ECMAScript rule,
applied to the double's exact rational value). -/
def jsMathRound (m : Nat) (g : Int) : Nat :=
  if 0 ≤ g then m * 2 ^ g.toNat
  else
    let d := 2 ^ (-g).toNat
    (2 * m + d) / (2 * d)

/-- Embeds `Math.round((completed / total) * 100)` for `total > 0`: the
binary64 division, then the binary64 multiplication by 100, then
`Math.round` on the resulting double. -/
def jsCompletionRate (completed total : Nat) : Nat :=
  let x := fdiv64 completed total
  let y := fmul100 x.1 x.2
  jsMathRound y.1 y.2

/-- Modelled from the spec: the claim's completion-rate formula
`round(done / total × 100)` read as exact half-up rational rounding, kept to
compare against the program's floating-point computation. -/
def specRound100 (completed total : Nat) : Nat :=
  (200 * completed + total) / (2 * total)

/-- Embeds the aggregation loop of `getAnalytics` over an already-fetched
task list, with today's date a parameter. -/
def getAnalytics (tasks : List Task) (today : Str) : Analytics :=
  let statusCounts := tasks.foldl (fun m t => bumpCount m t.status) initStatusCounts
  let priorityCounts :=
    tasks.foldl (fun m t => bumpCount m t.priority) initPriorityCounts
  let assigneeCounts := tasks.foldl (fun m t => bumpCount m (assigneeKey t)) []
  let overdue := tasks.countP (fun t =>
    dueTruthyBefore t today && !(t.status == "done".toList))
  let total := tasks.length
  let completed := countLookup statusCounts ("done".toList)
  { total := total
    completed := completed
    completionRate := if total = 0 then 0 else jsCompletionRate completed total
    overdue := overdue
    statusCounts := statusCounts
    priorityCounts := priorityCounts
    assigneeCounts := assigneeCounts }

/-- Remote issue store, modelled as the list of its issue records. -/
abbrev Store := List GhIssue

/-- Record-level effect of closing an issue: the state becomes closed with
the given reason; every other field is untouched. -/
def closeIssueRecord (reason : Str) (i : GhIssue) : GhIssue :=
  { i with state := "closed".toList, stateReason := some reason }

/-- Modelled from the spec: the issue-store port operation
`closeIssue(id, reason)` (reached in the source through
`gh issue close <id> --reason <reason>`), which sets the state of the
records with the given number to closed with the given reason and changes
nothing else. -/
def closeIssuePort (store : Store) (id : Nat) (reason : Str) : Store :=
  store.map (fun i => if i.number = id then closeIssueRecord reason i else i)

/-- Modelled from the spec: the issue-store port operation `getIssue(id)`
(`gh issue view <id>`), which retrieves a record by number regardless of its
open/closed state. -/
def getIssuePort (store : Store) (id : Nat) : Option GhIssue :=
  store.find? (·.number = id)

/-- Modelled from the spec: the issue-store port operation
`listIssues(filterSpec)` restricted to its state filter (`gh issue list
--state open|closed|all`). -/
def listIssuesPort (store : Store) (state : Str) : List GhIssue :=
  if state = "all".toList then store
  else store.filter (fun i => i.state == state)

/-- Embeds `deleteTask`: `gh issue close <id> --reason 'not planned'`. -/
def deleteTask (store : Store) (id : Nat) : Store :=
  closeIssuePort store id ("not planned".toList)

/-- Embeds `getTask`: fetch one record by id and normalize it (`none` models
the NotFoundError path). -/
def getTask (store : Store) (id : Nat) : Option Task :=
  (getIssuePort store id).map issueToTask

/-- Embeds `listTasks` with no filters: the default call passes
`--state open` to the store and runs the local pipeline. -/
def listTasksDefault (store : Store) : List Task :=
  listTasksLocal (listIssuesPort store ("open".toList)) false

/-- Embeds the state fragment of the `updateTask` payload (lines 1008-1013
of src/core/ghcli.js): a `done` status update closes as completed; any other
truthy status update reopens when the current state is closed; otherwise the
payload carries no state. -/
def updateStatePatch (updStatus : Option Str) (currentState : Str) :
    Option Str × Option Str :=
  match updStatus with
  | some s =>
    if s = "done".toList then (some ("closed".toList), some ("completed".toList))
    else if !s.isEmpty ∧ currentState = "closed".toList then
      (some ("open".toList), none)
    else (none, none)
  | none => (none, none)

/-! Order-theoretic facts about the comparator, needed to justify the sort
model. -/

theorem charToNat_strictMono : StrictMono Char.toNat := fun _ _ h => h

theorem charToNat_inj {a b : Char} (h : a.toNat = b.toNat) : a = b :=
  charToNat_strictMono.injective h

theorem cmpStr_self (s : Str) : cmpStr s s = 0 := by
  induction s with
  | nil => rfl
  | cons c cs ih => simp [cmpStr, ih]

theorem cmpStr_swap (a : Str) : ∀ b : Str, cmpStr b a = -cmpStr a b := by
  induction a with
  | nil => intro b; cases b <;> simp [cmpStr]
  | cons x xs ih =>
    intro b
    cases b with
    | nil => simp [cmpStr]
    | cons y ys =>
      by_cases hxy : x = y
      · subst hxy; simpa [cmpStr] using ih ys
      · have hne : x.toNat ≠ y.toNat := fun hn => hxy (charToNat_inj hn)
        by_cases hlt : x.toNat < y.toNat
        · have : ¬ y.toNat < x.toNat := by omega
          simp [cmpStr, hxy, Ne.symm hxy, hlt, this]
        · have : y.toNat < x.toNat := by omega
          simp [cmpStr, hxy, Ne.symm hxy, hlt, this]

theorem cmpStr_trans_nonpos (a : Str) :
    ∀ b c : Str, cmpStr a b ≤ 0 → cmpStr b c ≤ 0 → cmpStr a c ≤ 0 := by
  induction a with
  | nil => intro b c _ _; cases c <;> simp [cmpStr]
  | cons x xs ih =>
    intro b c h1 h2
    cases b with
    | nil => simp [cmpStr] at h1
    | cons y ys =>
      cases c with
      | nil => simp [cmpStr] at h2
      | cons z zs =>
        by_cases hxy : x = y
        · subst hxy
          by_cases hyz : x = z
          · subst hyz
            simp only [cmpStr, if_pos rfl] at h1 h2 ⊢
            exact ih ys zs h1 h2
          · have hlt : x.toNat < z.toNat := by
              simp only [cmpStr, if_pos rfl, if_neg hyz] at h2
              by_cases h : x.toNat < z.toNat
              · exact h
              · simp [h] at h2
            simp [cmpStr, hyz, hlt]
        · have hlt1 : x.toNat < y.toNat := by
            simp only [cmpStr, if_neg hxy] at h1
            by_cases h : x.toNat < y.toNat
            · exact h
            · simp [h] at h1
          by_cases hyz : y = z
          · subst hyz
            simp [cmpStr, hxy, hlt1]
          · have hlt2 : y.toNat < z.toNat := by
              simp only [cmpStr, if_neg hyz] at h2
              by_cases h : y.toNat < z.toNat
              · exact h
              · simp [h] at h2
            have hxz : x ≠ z := fun he => by
              subst he; omega
            have : x.toNat < z.toNat := by omega
            simp [cmpStr, hxz, this]

theorem dueCmp_swap : ∀ a b : Option Str, dueCmp b a = -dueCmp a b
  | none, none => rfl
  | some _, none => rfl
  | none, some _ => rfl
  | some da, some db => cmpStr_swap da db

theorem dueCmp_trans_nonpos (a b c : Option Str) :
    dueCmp a b ≤ 0 → dueCmp b c ≤ 0 → dueCmp a c ≤ 0 := by
  cases a <;> cases b <;> cases c <;> intro h1 h2 <;>
    simp only [dueCmp] at h1 h2 ⊢ <;>
    first
      | exact cmpStr_trans_nonpos _ _ _ h1 h2
      | omega

theorem taskCmp_swap (a b : Task) : taskCmp b a = -taskCmp a b := by
  unfold taskCmp
  by_cases h : (priorityRank a.priority : Int) = (priorityRank b.priority : Int)
  · rw [if_neg (by omega), if_neg (by omega)]
    exact dueCmp_swap a.due_date b.due_date
  · rw [if_pos (by omega), if_pos (by omega)]
    omega

theorem taskCmp_trans_nonpos (a b c : Task) :
    taskCmp a b ≤ 0 → taskCmp b c ≤ 0 → taskCmp a c ≤ 0 := by
  unfold taskCmp
  by_cases hab : (priorityRank a.priority : Int) = (priorityRank b.priority : Int) <;>
    by_cases hbc : (priorityRank b.priority : Int) = (priorityRank c.priority : Int)
  · rw [if_neg (by omega), if_neg (by omega), if_neg (by omega)]
    exact dueCmp_trans_nonpos _ _ _
  · rw [if_neg (by omega), if_pos (by omega), if_pos (by omega)]
    intro _ h2
    omega
  · rw [if_pos (by omega), if_neg (by omega), if_pos (by omega)]
    intro h1 _
    omega
  · rw [if_pos (by omega), if_pos (by omega)]
    intro h1 h2
    rw [if_pos (by omega)]
    omega

instance : IsTrans Task taskLe :=
  ⟨fun a b c h1 h2 => taskCmp_trans_nonpos a b c h1 h2⟩

instance : IsTotal Task taskLe :=
  ⟨fun a b => by
    have h := taskCmp_swap a b
    unfold taskLe
    omega⟩

/-! Shared helper lemmas. -/

theorem find?_first {α : Type} (p : α → Bool) (pre post : List α) (x : α)
    (hpre : ∀ a ∈ pre, p a = false) (hx : p x = true) :
    (pre ++ x :: post).find? p = some x := by
  induction pre with
  | nil => simpa using List.find?_cons_of_pos post hx
  | cons a t ih =>
    rw [List.cons_append, List.find?_cons_of_neg]
    · exact ih fun b hb => hpre b (by simp [hb])
    · simp [hpre a (by simp)]

theorem mem_sortTasks {t : Task} {ts : List Task} : t ∈ sortTasks ts ↔ t ∈ ts :=
  List.mem_insertionSort taskLe

theorem mem_listTasksLocal {issues : List GhIssue} {b : Bool} {t : Task} :
    t ∈ listTasksLocal issues b ↔
      (∃ i ∈ issues, issueHasTpLabel i = true ∧ issueToTask i = t) ∧
        (b = true → t.my_day = true) := by
  unfold listTasksLocal
  cases b
  · show t ∈ sortTasks ((issues.filter issueHasTpLabel).map issueToTask) ↔ _
    rw [mem_sortTasks, List.mem_map]
    constructor
    · rintro ⟨i, hi, rfl⟩
      rw [List.mem_filter] at hi
      exact ⟨⟨i, hi.1, hi.2, rfl⟩, fun h => by cases h⟩
    · rintro ⟨⟨i, hi, htp, rfl⟩, _⟩
      exact ⟨i, List.mem_filter.mpr ⟨hi, htp⟩, rfl⟩
  · show t ∈ sortTasks
        (((issues.filter issueHasTpLabel).map issueToTask).filter (·.my_day)) ↔ _
    rw [mem_sortTasks, List.mem_filter, List.mem_map]
    constructor
    · rintro ⟨⟨i, hi, rfl⟩, hmd⟩
      rw [List.mem_filter] at hi
      exact ⟨⟨i, hi.1, hi.2, rfl⟩, fun _ => hmd⟩
    · rintro ⟨⟨i, hi, htp, rfl⟩, hmd⟩
      exact ⟨⟨i, List.mem_filter.mpr ⟨hi, htp⟩, rfl⟩, hmd rfl⟩

theorem boardStep_fields (b : BoardColumns) (t : Task) :
    (boardStep b t).todo =
        b.todo ++ (if t.status = ("todo".toList) then [t] else []) ∧
      (boardStep b t).in_progress =
        b.in_progress ++ (if t.status = ("in-progress".toList) then [t] else []) ∧
      (boardStep b t).blocked =
        b.blocked ++ (if t.status = ("blocked".toList) then [t] else []) ∧
      (boardStep b t).done =
        b.done ++ (if t.status = ("done".toList) then [t] else []) := by
  unfold boardStep
  split_ifs with h1 h2 h3 h4 <;> simp_all

theorem foldl_boardStep_fields (tasks : List Task) :
    ∀ b : BoardColumns,
      (tasks.foldl boardStep b).todo =
          b.todo ++ tasks.filter (fun t => decide (t.status = ("todo".toList))) ∧
        (tasks.foldl boardStep b).in_progress =
          b.in_progress ++
            tasks.filter (fun t => decide (t.status = ("in-progress".toList))) ∧
        (tasks.foldl boardStep b).blocked =
          b.blocked ++
            tasks.filter (fun t => decide (t.status = ("blocked".toList))) ∧
        (tasks.foldl boardStep b).done =
          b.done ++ tasks.filter (fun t => decide (t.status = ("done".toList))) := by
  induction tasks with
  | nil => intro b; simp
  | cons t ts ih =>
    intro b
    obtain ⟨h1, h2, h3, h4⟩ := ih (boardStep b t)
    obtain ⟨g1, g2, g3, g4⟩ := boardStep_fields b t
    refine ⟨?_, ?_, ?_, ?_⟩ <;>
      simp only [List.foldl_cons, h1, h2, h3, h4, g1, g2, g3, g4,
        List.filter_cons, List.append_assoc] <;>
      split_ifs <;> simp_all

def statusKeys : List Str := statusLabels.map (·.1)

theorem getStatusFromLabels_mem (ls : List GhLabel) :
    getStatusFromLabels ls ∈ statusKeys := by
  unfold getStatusFromLabels
  cases h : statusLabels.find? (fun p => (labelNames ls).contains p.2) with
  | none => decide
  | some p => exact List.mem_map_of_mem _ (List.mem_of_find?_eq_some h)

theorem countLookup_cons (x : Str × Nat) (l : List (Str × Nat)) (key : Str) :
    countLookup (x :: l) key = if x.1 = key then x.2 else countLookup l key := by
  unfold countLookup
  by_cases h : x.1 = key
  · rw [List.find?_cons_of_pos _ (by simpa using h), if_pos h]
  · rw [List.find?_cons_of_neg _ (by simpa using h), if_neg h]

theorem countLookup_map_inc_ne (m : List (Str × Nat)) (k key : Str)
    (hne : key ≠ k) :
    countLookup (m.map (fun p => if p.1 = k then (p.1, p.2 + 1) else p)) key =
      countLookup m key := by
  induction m with
  | nil => rfl
  | cons hd tl ih =>
    by_cases hh : hd.1 = k
    · simp only [List.map_cons, if_pos hh]
      rw [countLookup_cons, countLookup_cons, ih]
      have hk : hd.1 ≠ key := fun he => hne (he.symm.trans hh)
      simp [hk]
    · simp only [List.map_cons, if_neg hh]
      rw [countLookup_cons, countLookup_cons, ih]

theorem countLookup_bumpCount (m : List (Str × Nat)) (k key : Str) :
    countLookup (bumpCount m k) key =
      countLookup m key + if k = key then 1 else 0 := by
  induction m with
  | nil =>
    unfold bumpCount countLookup
    by_cases h : k = key <;> simp [List.find?, h]
  | cons hd tl ih =>
    by_cases hany : ((hd :: tl).any fun p => decide (p.1 = k)) = true
    · unfold bumpCount
      rw [if_pos hany]
      by_cases hh : hd.1 = k
      · simp only [List.map_cons, if_pos hh]
        rw [countLookup_cons, countLookup_cons]
        by_cases hk : k = key
        · have h1 : hd.1 = key := hh.trans hk
          simp [h1, hk]
        · have h1 : hd.1 ≠ key := fun he => hk (hh.symm.trans he)
          rw [countLookup_map_inc_ne tl k key (fun he => hk he.symm)]
          simp [h1, hk]
      · have htl : (tl.any fun p => decide (p.1 = k)) = true := by
          simpa [List.any_cons, hh] using hany
        simp only [List.map_cons, if_neg hh]
        rw [countLookup_cons, countLookup_cons]
        have ih2 := ih
        unfold bumpCount at ih2
        rw [if_pos htl] at ih2
        rw [ih2]
        by_cases hyk : hd.1 = key
        · have hk : k ≠ key := fun he => hh (hyk.trans he.symm)
          simp [hyk, hk]
        · simp [hyk]
    · unfold bumpCount
      rw [if_neg hany]
      have hh : hd.1 ≠ k := fun he => hany (by simp [List.any_cons, he])
      have htl : ¬ (tl.any fun p => decide (p.1 = k)) = true := fun he =>
        hany (by simp [List.any_cons, he])
      have ih2 := ih
      unfold bumpCount at ih2
      rw [if_neg htl] at ih2
      rw [List.cons_append, countLookup_cons, countLookup_cons, ih2]
      by_cases hyk : hd.1 = key
      · have hk : k ≠ key := fun he => hh (hyk.trans he.symm)
        simp [hyk, hk]
      · simp [hyk]

theorem countLookup_foldl_bump (keys : List Str) (key : Str) :
    ∀ m, countLookup (keys.foldl bumpCount m) key =
      countLookup m key + keys.countP (fun k => decide (k = key)) := by
  induction keys with
  | nil => intro m; simp
  | cons k ks ih =>
    intro m
    simp only [List.foldl_cons, List.countP_cons]
    rw [ih, countLookup_bumpCount]
    by_cases h : k = key <;> simp [h] <;> omega

theorem getIssuePort_map_preserving (store : Store) (id : Nat)
    (f : GhIssue → GhIssue) (hf : ∀ j, (f j).number = j.number) :
    getIssuePort (store.map f) id = (getIssuePort store id).map f := by
  unfold getIssuePort
  rw [List.find?_map]
  have hp : ((fun i => decide (i.number = id)) ∘ f) =
      (fun j => decide (j.number = id)) := by
    funext j
    simp [Function.comp, hf j]
  rw [hp]

theorem dueTruthyBefore_of_eq_today {t : Task} {today : Str}
    (h : t.due_date = some today) : dueTruthyBefore t today = false := by
  unfold dueTruthyBefore
  rw [h]
  simp [cmpStr_self]

theorem ne_today_of_dueTruthyBefore {t : Task} {today : Str}
    (h : dueTruthyBefore t today = true) : ¬ t.due_date = some today := by
  intro he
  unfold dueTruthyBefore at h
  rw [he] at h
  simp [cmpStr_self] at h

/-! Claim theorems. -/

/-- Metadata map of the failing input for the codec round-trip claim: a
bracketed string list among the claimed supported value types (the
repository's own requirements document shows `tags: [frontend, bug]` as the
stored format). -/
def c1Meta : Meta :=
  [(("priority".toList), .vStr ("high".toList)),
   (("tags".toList), .vList [("frontend".toList), ("bug".toList)])]

def c1Desc : Str := "Fix the login bug".toList

/-- C1: the round-trip contract `decode(encode(m, d)) = (m, d)` fails on the
code for list-valued metadata: `buildYamlFrontMatter` joins arrays without
brackets (producing the line `tags: frontend, bug`) and
`parseYamlFrontMatter` has no list coercion at all, so the encoded list
decodes to the plain string "frontend, bug" and the round trip is not the
identity on the claimed value set. -/
theorem c1_codec_list_roundtrip_fails :
    parseYamlFrontMatter (buildYamlFrontMatter c1Meta c1Desc) =
      ([(("priority".toList), .vStr ("high".toList)),
        (("tags".toList), .vStr ("frontend, bug".toList))], c1Desc) ∧
    ¬ parseYamlFrontMatter (buildYamlFrontMatter c1Meta c1Desc) =
        (c1Meta, c1Desc) := by
  decide

/-- Incomplete in-progress task with a past due date and no my-day flag: the
input refuting the disjointness of the My Day partition. -/
def c2Task : Task :=
  { id := 7, title := ("fix".toList), body := [],
    status := ("in-progress".toList), priority := ("medium".toList),
    due_date := some ("2026-01-01".toList), labels := [], assignee := none,
    sprint_id := none, sprint_name := none, my_day := false,
    estimated_hours := .vInt 0, actual_hours := .vInt 0, tags := .vList [],
    parent_task := none, created_at := [], updated_at := [], html_url := [] }

/-- C2 counterexample: with today = 2026-02-02, the incomplete task above
appears in BOTH the overdue and the in-progress buckets of getMyDayTasks:
the in-progress filter excludes the my-day flag and a due date equal to
today, but not an earlier one, so the partition is not disjoint. -/
theorem c2_my_day_not_disjoint :
    ¬ c2Task.status = ("done".toList) ∧
    c2Task ∈ (getMyDayTasks [c2Task] ("2026-02-02".toList)).overdue ∧
    c2Task ∈ (getMyDayTasks [c2Task] ("2026-02-02".toList)).in_progress := by
  decide

/-- C2 (amended): the partition is disjoint except for the overdue /
in-progress pair: my_day, due_today and overdue are pairwise disjoint and
in_progress is disjoint from my_day and due_today, while a task lies in both
overdue and in_progress exactly when it is an in-progress task, not flagged
my-day, whose truthy due date sorts strictly before today. -/
theorem c2_my_day_partition_amended :
    ∀ (tasks : List Task) (today : Str) (t : Task),
      (t ∈ (getMyDayTasks tasks today).my_day →
        t ∉ (getMyDayTasks tasks today).due_today ∧
          t ∉ (getMyDayTasks tasks today).overdue ∧
          t ∉ (getMyDayTasks tasks today).in_progress) ∧
      (t ∈ (getMyDayTasks tasks today).due_today →
        t ∉ (getMyDayTasks tasks today).overdue ∧
          t ∉ (getMyDayTasks tasks today).in_progress) ∧
      (t ∈ (getMyDayTasks tasks today).overdue ∧
          t ∈ (getMyDayTasks tasks today).in_progress ↔
        t ∈ tasks ∧ t.status = ("in-progress".toList) ∧ t.my_day = false ∧
          dueTruthyBefore t today = true) := by
  intro tasks today t
  refine ⟨?_, ?_, ?_⟩
  · intro h
    have hp := (List.mem_filter.mp h).2
    simp only [Bool.and_eq_true, Bool.not_eq_true', beq_iff_eq] at hp
    obtain ⟨hmd, -⟩ := hp
    refine ⟨?_, ?_, ?_⟩ <;> intro h2 <;>
      have hq := (List.mem_filter.mp h2).2 <;>
      simp [hmd] at hq
  · intro h
    have hp := (List.mem_filter.mp h).2
    simp only [Bool.and_eq_true, Bool.not_eq_true', beq_iff_eq] at hp
    obtain ⟨⟨hdue, -⟩, -⟩ := hp
    constructor
    · intro h2
      have hq := (List.mem_filter.mp h2).2
      simp [dueTruthyBefore_of_eq_today hdue] at hq
    · intro h2
      have hq := (List.mem_filter.mp h2).2
      simp [hdue] at hq
  · constructor
    · rintro ⟨ho, hi⟩
      have hot := (List.mem_filter.mp ho).1
      have hop := (List.mem_filter.mp ho).2
      have hip := (List.mem_filter.mp hi).2
      simp only [Bool.and_eq_true, Bool.not_eq_true', beq_iff_eq] at hop hip
      exact ⟨hot, hip.1.1, hip.1.2, hop.1.1⟩
    · rintro ⟨ht, hst, hmd, hdb⟩
      have hnd : ¬ ("in-progress".toList : Str) = ("done".toList) := by decide
      constructor
      · exact List.mem_filter.mpr ⟨ht, by simp [hdb, hmd, hst, hnd]⟩
      · exact List.mem_filter.mpr
          ⟨ht, by simp [hst, hmd, ne_today_of_dueTruthyBefore hdb]⟩

/-- My-day-flagged task used to exercise the amended My Day theorem. -/
def c2wTask : Task :=
  { id := 8, title := ("focus".toList), body := [],
    status := ("todo".toList), priority := ("medium".toList),
    due_date := some ("2026-01-01".toList), labels := [], assignee := none,
    sprint_id := none, sprint_name := none, my_day := true,
    estimated_hours := .vInt 0, actual_hours := .vInt 0, tags := .vList [],
    parent_task := none, created_at := [], updated_at := [], html_url := [] }

/-- Witness for the amended C2 theorem: a my-day task with a past due date
is kept out of the overdue bucket. -/
theorem c2_my_day_partition_amended_witness :
    c2wTask ∉ (getMyDayTasks [c2wTask] ("2026-02-02".toList)).overdue :=
  ((c2_my_day_partition_amended [c2wTask] ("2026-02-02".toList) c2wTask).1
    (by decide)).2.1

/-- Issue carrying only the label `tp:custom`, which shares the system prefix
but is none of the 8 fixed system labels. -/
def c3Issue : GhIssue :=
  { number := 5, title := ("x".toList), body := none,
    labels := [.named ("tp:custom".toList)], assignees := [], assignee := none,
    milestoneNumber := none, milestoneTitle := none,
    state := ("open".toList), stateReason := none, createdAt := none,
    created_at := none, updatedAt := none, updated_at := none,
    html_url := none, url := none }

/-- C3 counterexample: an issue whose only label is `tp:custom` — not one of
the 8 recognized system labels — is included by the listing pipeline: the
code discriminates on the `tp:` prefix, not on the 8-name vocabulary. -/
theorem c3_listing_discriminator_counterexample :
    (∀ p ∈ statusLabels ++ priorityLabels,
      ((labelNames c3Issue.labels).contains p.2) = false) ∧
    listTasksLocal [c3Issue] false = [issueToTask c3Issue] := by
  decide

/-- C3 (amended): the listing discriminator is the `tp:` prefix: every
listed task arises from a fetched record carrying a `tp:`-prefixed label,
and in the unfiltered call every such record's task is listed. -/
theorem c3_listing_discriminator_amended :
    (∀ (issues : List GhIssue) (b : Bool) (t : Task),
      t ∈ listTasksLocal issues b →
        ∃ i ∈ issues, issueHasTpLabel i = true ∧ issueToTask i = t) ∧
    (∀ (issues : List GhIssue) (i : GhIssue),
      i ∈ issues → issueHasTpLabel i = true →
        issueToTask i ∈ listTasksLocal issues false) := by
  constructor
  · intro issues b t ht
    exact (mem_listTasksLocal.mp ht).1
  · intro issues i hi htp
    exact mem_listTasksLocal.mpr ⟨⟨i, hi, htp, rfl⟩, fun h => by cases h⟩

/-- Witness for the amended C3 theorem at a concrete store. -/
theorem c3_listing_discriminator_amended_witness :
    issueToTask c3Issue ∈ listTasksLocal [c3Issue] false :=
  c3_listing_discriminator_amended.2 [c3Issue] c3Issue (by simp) (by decide)

/-- C4 counterexample: `tp:custom` is not one of the 8 fixed system label
names, yet getUserLabels drops it (the code filters on the `tp:` prefix), so
the user-tag set is not "every name outside the fixed vocabulary". -/
theorem c4_user_tags_counterexample :
    getUserLabels [.named ("tp:custom".toList), .named ("frontend".toList)] =
      [("frontend".toList)] ∧
    (∀ p ∈ statusLabels ++ priorityLabels, ¬ p.2 = ("tp:custom".toList)) := by
  decide

/-- C4 (amended): getUserLabels returns exactly the label names that do not
start with the `tp:` prefix — hence never a system label, but it also drops
prefixed non-vocabulary names such as `tp:custom`. -/
theorem c4_user_tags_amended :
    (∀ (ls : List GhLabel) (n : Str),
      n ∈ getUserLabels ls ↔
        n ∈ labelNames ls ∧ (("tp:".toList).isPrefixOf n) = false) ∧
    (∀ (ls : List GhLabel), ∀ p ∈ statusLabels ++ priorityLabels,
      p.2 ∉ getUserLabels ls) := by
  constructor
  · intro ls n
    unfold getUserLabels
    rw [List.mem_filter]
    simp
  · intro ls p hp hmem
    unfold getUserLabels at hmem
    rw [List.mem_filter] at hmem
    have hpref : (("tp:".toList).isPrefixOf p.2) = true := by
      fin_cases hp <;> decide
    have h2 : (("tp:".toList).isPrefixOf p.2) = false := by simpa using hmem.2
    rw [hpref] at h2
    cases h2

/-- Witness for the amended C4 theorem at concrete labels. -/
theorem c4_user_tags_amended_witness :
    ("frontend".toList) ∈ getUserLabels [.named ("frontend".toList)] ∧
    ("tp:todo".toList) ∉ getUserLabels [.named ("frontend".toList)] :=
  ⟨(c4_user_tags_amended.1 [.named ("frontend".toList)] _).mpr (by decide),
   c4_user_tags_amended.2 [.named ("frontend".toList)]
     (("todo".toList), ("tp:todo".toList)) (by decide)⟩

/-- Open issue used to exercise the soft-delete-then-update scenario. -/
def c7Issue : GhIssue :=
  { number := 1, title := ("t".toList), body := none, labels := [],
    assignees := [], assignee := none, milestoneNumber := none,
    milestoneTitle := none, state := ("open".toList), stateReason := none,
    createdAt := none, created_at := none, updatedAt := none,
    updated_at := none, html_url := none, url := none }

/-- C7 counterexample: a record closed by the soft-delete path (reason "not
planned", i.e. not by the done-transition mechanism) is nevertheless
reopened by a non-done status update: the update payload tests only
`state === 'closed'`, never how the record came to be closed. -/
theorem c7_reopen_counterexample :
    (getIssuePort (deleteTask [c7Issue] 1) 1).map (fun i => i.stateReason) =
      some (some ("not planned".toList)) ∧
    updateStatePatch (some ("in-progress".toList))
        (((getIssuePort (deleteTask [c7Issue] 1) 1).map (fun i => i.state)).getD
          []) =
      (some ("open".toList), none) := by
  decide

/-- C7 (amended): a `done` status update closes the record as completed; any
other nonempty status update reopens it exactly when the current state is
closed — regardless of the reason it was closed — and otherwise the payload
carries no state change; an update without a status never touches the
state. -/
theorem c7_done_state_coupling_amended :
    ∀ (upd : Option Str) (cur : Str),
      (upd = some ("done".toList) →
        updateStatePatch upd cur =
          (some ("closed".toList), some ("completed".toList))) ∧
      (∀ s, upd = some s → ¬ s = ("done".toList) → ¬ s = [] →
        cur = ("closed".toList) →
        updateStatePatch upd cur = (some ("open".toList), none)) ∧
      (∀ s, upd = some s → ¬ s = ("done".toList) → ¬ cur = ("closed".toList) →
        updateStatePatch upd cur = (none, none)) ∧
      (upd = none → updateStatePatch upd cur = (none, none)) := by
  intro upd cur
  refine ⟨?_, ?_, ?_, ?_⟩
  · rintro rfl
    rfl
  · rintro s rfl hs hse hcur
    unfold updateStatePatch
    dsimp only
    rw [if_neg hs,
      if_pos (⟨by
        cases s with
        | nil => exact absurd rfl hse
        | cons c cs => rfl, hcur⟩ :
        (!List.isEmpty s) = true ∧ cur = ("closed".toList))]
  · rintro s rfl hs hcur
    unfold updateStatePatch
    dsimp only
    rw [if_neg hs, if_neg (fun hc => hcur hc.2)]
  · rintro rfl
    rfl

/-- Witness for the amended C7 theorem: a done update closes as completed. -/
theorem c7_done_state_coupling_amended_witness :
    updateStatePatch (some ("done".toList)) ("open".toList) =
      (some ("closed".toList), some ("completed".toList)) :=
  (c7_done_state_coupling_amended (some ("done".toList)) ("open".toList)).1 rfl

/-- The spec's sort example, first task: urgent priority, no due date. -/
def c5Urgent : Task :=
  { id := 1, title := ("a".toList), body := [], status := ("todo".toList),
    priority := ("urgent".toList), due_date := none, labels := [],
    assignee := none, sprint_id := none, sprint_name := none, my_day := false,
    estimated_hours := .vInt 0, actual_hours := .vInt 0, tags := .vList [],
    parent_task := none, created_at := [], updated_at := [], html_url := [] }

/-- The spec's sort example, second task: low priority, due 2026-01-01. -/
def c5Low : Task :=
  { c5Urgent with
    id := 2
    priority := ("low".toList)
    due_date := some ("2026-01-01".toList) }

/-- The spec's sort example, third task: high priority, due 2026-01-05. -/
def c5HighDated : Task :=
  { c5Urgent with
    id := 3
    priority := ("high".toList)
    due_date := some ("2026-01-05".toList) }

/-- The spec's sort example, fourth task: high priority, no due date. -/
def c5HighNone : Task :=
  { c5Urgent with
    id := 4
    priority := ("high".toList)
    due_date := none }

/-- C5: the canonical sort returns a permutation of its input ordered by the
comparator (priority rank first, then due date with undated tasks last), is
stable (a pair already in comparator order keeps its relative order), and on
the spec's example input produces exactly the claimed output. -/
theorem c5_canonical_sort :
    (∀ ts : List Task, (sortTasks ts).Perm ts) ∧
    (∀ ts : List Task, List.Pairwise taskLe (sortTasks ts)) ∧
    (∀ (a b : Task) (ts : List Task), taskLe a b → [a, b].Sublist ts →
      [a, b].Sublist (sortTasks ts)) ∧
    sortTasks [c5Urgent, c5Low, c5HighDated, c5HighNone] =
      [c5Urgent, c5HighDated, c5HighNone, c5Low] := by
  refine ⟨?_, ?_, ?_, ?_⟩
  · intro ts
    exact List.perm_insertionSort taskLe ts
  · intro ts
    exact List.sorted_insertionSort taskLe ts
  · intro a b ts hab hsub
    exact List.pair_sublist_insertionSort hab hsub
  · decide

/-- Witness for C5: its stability clause applied at the example's two
high-priority tasks. -/
theorem c5_canonical_sort_witness :
    [c5HighDated, c5HighNone].Sublist
      (sortTasks [c5Urgent, c5Low, c5HighDated, c5HighNone]) :=
  c5_canonical_sort.2.2.1 c5HighDated c5HighNone
    [c5Urgent, c5Low, c5HighDated, c5HighNone] (by decide)
    (List.Sublist.cons c5Urgent (List.Sublist.cons c5Low (List.Sublist.refl _)))

/-- C6: label-to-enum recovery: the first status (resp. priority) in enum
declaration order whose label occurs among the record's label names wins —
covering both the exactly-one case and the multiple-match case — and the
defaults todo / medium are returned when no status (resp. priority) label is
present. -/
theorem c6_label_enum_recovery :
    (∀ (ls : List GhLabel) (pre post : List (Str × Str)) (e : Str × Str),
      statusLabels = pre ++ e :: post →
      ((labelNames ls).contains e.2) = true →
      (∀ p ∈ pre, ((labelNames ls).contains p.2) = false) →
      getStatusFromLabels ls = e.1) ∧
    (∀ ls : List GhLabel,
      (∀ p ∈ statusLabels, ((labelNames ls).contains p.2) = false) →
      getStatusFromLabels ls = ("todo".toList)) ∧
    (∀ (ls : List GhLabel) (pre post : List (Str × Str)) (e : Str × Str),
      priorityLabels = pre ++ e :: post →
      ((labelNames ls).contains e.2) = true →
      (∀ p ∈ pre, ((labelNames ls).contains p.2) = false) →
      getPriorityFromLabels ls = e.1) ∧
    (∀ ls : List GhLabel,
      (∀ p ∈ priorityLabels, ((labelNames ls).contains p.2) = false) →
      getPriorityFromLabels ls = ("medium".toList)) := by
  refine ⟨?_, ?_, ?_, ?_⟩
  · intro ls pre post e he hcont hpre
    unfold getStatusFromLabels
    rw [he, find?_first _ pre post e (fun a ha => hpre a ha) hcont]
  · intro ls h
    unfold getStatusFromLabels
    rw [List.find?_eq_none.mpr (fun p hp => by simpa using h p hp)]
  · intro ls pre post e he hcont hpre
    unfold getPriorityFromLabels
    rw [he, find?_first _ pre post e (fun a ha => hpre a ha) hcont]
  · intro ls h
    unfold getPriorityFromLabels
    rw [List.find?_eq_none.mpr (fun p hp => by simpa using h p hp)]

/-- Witness for C6: two simultaneous status labels resolve to the first in
enum declaration order, and a record with no priority label gets the
default. -/
theorem c6_label_enum_recovery_witness :
    getStatusFromLabels
        [.named ("tp:done".toList), .named ("tp:in-progress".toList)] =
      ("in-progress".toList) ∧
    getPriorityFromLabels [.plain ("frontend".toList)] = ("medium".toList) :=
  ⟨c6_label_enum_recovery.1
      [.named ("tp:done".toList), .named ("tp:in-progress".toList)]
      [(("todo".toList), ("tp:todo".toList))]
      [(("done".toList), ("tp:done".toList)),
       (("blocked".toList), ("tp:blocked".toList))]
      (("in-progress".toList), ("tp:in-progress".toList))
      (by decide) (by decide) (by decide),
   c6_label_enum_recovery.2.2.2 [.plain ("frontend".toList)] (by decide)⟩

/-- C8: softDelete sets the target record's state to closed with the "not
planned" reason and changes nothing else about it (its labels in
particular), leaves every other record in the store untouched, keeps the
task retrievable by id through getTask, and excludes it from the default
(open-state) listing. -/
theorem c8_soft_delete_frame :
    ∀ (store : Store) (id : Nat) (i : GhIssue),
      getIssuePort store id = some i →
      (getIssuePort (deleteTask store id) id =
        some (closeIssueRecord ("not planned".toList) i)) ∧
      (getTask (deleteTask store id) id =
        some (issueToTask (closeIssueRecord ("not planned".toList) i))) ∧
      (closeIssueRecord ("not planned".toList) i).labels = i.labels ∧
      (∀ j ∈ store, ¬ j.number = id → j ∈ deleteTask store id) ∧
      (∀ t ∈ listTasksDefault (deleteTask store id), ¬ t.id = id) := by
  intro store id i hfind
  have hnum : i.number = id := by simpa using List.find?_some hfind
  have hf : ∀ j : GhIssue,
      ((fun j => if j.number = id then closeIssueRecord ("not planned".toList) j
        else j) j).number = j.number := by
    intro j
    by_cases h : j.number = id <;> simp [closeIssueRecord, h]
  have h1 : getIssuePort (deleteTask store id) id =
      some (closeIssueRecord ("not planned".toList) i) := by
    unfold deleteTask closeIssuePort
    rw [getIssuePort_map_preserving store id _ hf, hfind]
    simp [hnum]
  refine ⟨h1, ?_, rfl, ?_, ?_⟩
  · unfold getTask
    rw [h1]
    rfl
  · intro j hj hne
    unfold deleteTask closeIssuePort
    exact List.mem_map.mpr ⟨j, hj, by rw [if_neg hne]⟩
  · intro t ht hid
    unfold listTasksDefault at ht
    obtain ⟨⟨j, hj, htp, hjt⟩, -⟩ := mem_listTasksLocal.mp ht
    unfold listIssuesPort at hj
    rw [if_neg (by decide)] at hj
    rw [List.mem_filter] at hj
    obtain ⟨hjmem, hjstate⟩ := hj
    have hjid : j.number = id := by
      rw [← hjt] at hid
      simpa [issueToTask] using hid
    unfold deleteTask closeIssuePort at hjmem
    obtain ⟨j0, hj0, hj0eq⟩ := List.mem_map.mp hjmem
    by_cases h0 : j0.number = id
    · rw [if_pos h0] at hj0eq
      rw [← hj0eq] at hjstate
      have : ("closed".toList : Str) = ("open".toList) := by
        simpa [closeIssueRecord] using hjstate
      exact absurd this (by decide)
    · rw [if_neg h0] at hj0eq
      rw [hj0eq] at h0
      exact h0 hjid

/-- Open issue carrying a system label, used to exercise the soft-delete
frame theorem at a concrete store. -/
def c8Issue : GhIssue :=
  { number := 2, title := ("t".toList), body := none,
    labels := [.named ("tp:todo".toList)], assignees := [], assignee := none,
    milestoneNumber := none, milestoneTitle := none,
    state := ("open".toList), stateReason := none, createdAt := none,
    created_at := none, updatedAt := none, updated_at := none,
    html_url := none, url := none }

/-- Witness for C8 at a one-record store: after the soft delete, the record
is still retrievable and comes back closed / not planned. -/
theorem c8_soft_delete_frame_witness :
    getTask (deleteTask [c8Issue] 2) 2 =
      some (issueToTask (closeIssueRecord ("not planned".toList) c8Issue)) :=
  (c8_soft_delete_frame [c8Issue] 2 c8Issue (by decide)).2.1

theorem bitLenAux_zero (fuel : Nat) : bitLenAux fuel 0 = 0 := by
  cases fuel <;> rfl

theorem bitLenAux_spec :
    ∀ fuel n : Nat, n ≤ fuel → 0 < n →
      2 ^ (bitLenAux fuel n - 1) ≤ n ∧ n < 2 ^ bitLenAux fuel n := by
  intro fuel
  induction fuel with
  | zero => intro n hn h0; omega
  | succ f ih =>
    intro n hn h0
    simp only [bitLenAux]
    rw [if_neg (by omega)]
    by_cases h1 : n / 2 = 0
    · have hn1 : n = 1 := by omega
      subst hn1
      rw [h1, bitLenAux_zero]
      norm_num
    · obtain ⟨l, u⟩ := ih (n / 2) (by omega) (by omega)
      have hb1 : 1 ≤ bitLenAux f (n / 2) := by
        by_contra hc
        have hz : bitLenAux f (n / 2) = 0 := by omega
        rw [hz] at u
        simp at u
        omega
      constructor
      · have h2 : 2 ^ bitLenAux f (n / 2) = 2 * 2 ^ (bitLenAux f (n / 2) - 1) := by
          rw [← pow_succ']
          congr 1
          omega
        calc 2 ^ (bitLenAux f (n / 2) + 1 - 1) = 2 ^ bitLenAux f (n / 2) := by
              norm_num
          _ = 2 * 2 ^ (bitLenAux f (n / 2) - 1) := h2
          _ ≤ 2 * (n / 2) := by omega
          _ ≤ n := by omega
      · calc n < 2 * (n / 2) + 2 := by omega
          _ ≤ 2 * 2 ^ bitLenAux f (n / 2) := by omega
          _ = 2 ^ (bitLenAux f (n / 2) + 1) := by rw [pow_succ]; ring

theorem bitLen_spec (n : Nat) (h : 0 < n) :
    2 ^ (bitLen n - 1) ≤ n ∧ n < 2 ^ bitLen n :=
  bitLenAux_spec n n le_rfl h

theorem bitLen_pos (n : Nat) (h : 0 < n) : 1 ≤ bitLen n := by
  by_contra hc
  have hb : bitLen n = 0 := by omega
  have h2 := (bitLen_spec n h).2
  rw [hb] at h2
  simp at h2
  omega

theorem bitLen_mono {a b : Nat} (h : a ≤ b) : bitLen a ≤ bitLen b := by
  rcases Nat.eq_zero_or_pos a with rfl | ha
  · have h0 : bitLen 0 = 0 := rfl
    omega
  · have hb : 0 < b := lt_of_lt_of_le ha h
    obtain ⟨la, ua⟩ := bitLen_spec a ha
    obtain ⟨lb, ub⟩ := bitLen_spec b hb
    by_contra hc
    push_neg at hc
    have h1 : 2 ^ bitLen b ≤ 2 ^ (bitLen a - 1) :=
      Nat.pow_le_pow_right (by norm_num) (by omega)
    omega

theorem rneDiv_le_add_one (a b : Nat) : rneDiv a b ≤ a / b + 1 := by
  unfold rneDiv
  split_ifs <;> omega

theorem rneDiv_le_bound {a b m : Nat} (hb : 0 < b) (h : a < m * b) :
    rneDiv a b ≤ m := by
  have h1 : a / b < m := (Nat.div_lt_iff_lt_mul hb).mpr h
  have h2 := rneDiv_le_add_one a b
  omega

theorem rneDiv_one (a : Nat) : rneDiv a 1 = a := by
  unfold rneDiv
  rw [Nat.mod_one, Nat.div_one]
  norm_num

theorem rneDiv_zero_left (b : Nat) : rneDiv 0 b = 0 := by
  unfold rneDiv
  simp

theorem rneDiv_mul_left (x b : Nat) (hb : 0 < b) : rneDiv (b * x) b = x := by
  unfold rneDiv
  rw [Nat.mul_div_cancel_left x hb, Nat.mul_mod_right]
  rw [if_pos (by omega)]

theorem rneDiv_le_int (a b : Nat) (hb : 0 < b) :
    2 * rneDiv a b * b ≤ 2 * a + b := by
  obtain ⟨q, r, hr, rfl⟩ : ∃ q r, r < b ∧ a = b * q + r :=
    ⟨a / b, a % b, Nat.mod_lt a hb, (Nat.div_add_mod a b).symm⟩
  have hq : (b * q + r) / b = q := by
    rw [Nat.mul_add_div hb, Nat.div_eq_of_lt hr, Nat.add_zero]
  have hm : (b * q + r) % b = r := by
    rw [Nat.mul_add_mod, Nat.mod_eq_of_lt hr]
  unfold rneDiv
  rw [hq, hm]
  split_ifs with h1 h2 h3 <;> nlinarith

/-- Exact rational value of a dyadic mantissa-exponent pair. -/
def valQ (p : Nat × Int) : ℚ := (p.1 : ℚ) * 2 ^ p.2

theorem valQ_le_of_le_pow {n k : Nat} {g : Int}
    (hn : n ≤ 2 ^ k) (hkg : (k : Int) + g ≤ 0) : valQ (n, g) ≤ 1 := by
  unfold valQ
  have h2 : (0 : ℚ) < 2 ^ g := zpow_pos (by norm_num) g
  calc (n : ℚ) * 2 ^ g ≤ ((2 ^ k : Nat) : ℚ) * 2 ^ g := by
        apply mul_le_mul_of_nonneg_right _ (le_of_lt h2)
        exact_mod_cast hn
    _ ≤ 1 := by
        push_cast
        rw [← zpow_natCast (2 : ℚ) k, ← zpow_add₀ (by norm_num : (2 : ℚ) ≠ 0)]
        exact zpow_le_one_of_nonpos₀ (by norm_num) hkg

theorem subnormal_numer_bound {c t : Nat} (h : c * 2 ^ 1022 < t) :
    c * 2 ^ 1074 < 2 ^ 52 * t := by
  calc c * 2 ^ 1074 = c * 2 ^ 1022 * 2 ^ 52 := by rw [mul_assoc, ← pow_add]
    _ < t * 2 ^ 52 := mul_lt_mul_of_pos_right h (by positivity)
    _ = 2 ^ 52 * t := by ring

theorem valQ_fdiv64Core_le {A B : Nat} {e : Int} {c t : Nat} (ht : 0 < t)
    (hB : 0 < B) (hAB : A * 2 ^ 52 < 2 ^ 53 * B) (he : e + 1 ≤ 0)
    (hsubn : e < -1022 → c * 2 ^ 1022 < t) :
    valQ (fdiv64Core A B e c t) ≤ 1 := by
  unfold fdiv64Core
  by_cases hs : e < -1022
  · rw [if_pos hs]
    exact valQ_le_of_le_pow
      (rneDiv_le_bound ht (subnormal_numer_bound (hsubn hs))) (by omega)
  · rw [if_neg hs]
    exact valQ_le_of_le_pow (rneDiv_le_bound hB hAB) (by omega)

theorem valQ_fdiv64_le_one {c t : Nat} (hct : c ≤ t) (ht : 0 < t) :
    valQ (fdiv64 c t) ≤ 1 := by
  unfold fdiv64
  by_cases hc : c = 0
  · rw [if_pos hc]
    unfold valQ
    norm_num
  · rw [if_neg hc]
    have hc0 : 0 < c := Nat.pos_of_ne_zero hc
    have hmono : bitLen c ≤ bitLen t := bitLen_mono hct
    obtain ⟨lc, uc⟩ := bitLen_spec c hc0
    obtain ⟨lt2, ut⟩ := bitLen_spec t ht
    have hbt1 : 1 ≤ bitLen t := bitLen_pos t ht
    have hBpos : 0 < t * 2 ^ bitLen c := by positivity
    have hAB : c * 2 ^ bitLen t < 2 * (t * 2 ^ bitLen c) := by
      have h1 : c * 2 ^ bitLen t < 2 ^ bitLen c * 2 ^ bitLen t :=
        mul_lt_mul_of_pos_right uc (by positivity)
      have h3 : (2 : Nat) ^ bitLen t = 2 * 2 ^ (bitLen t - 1) := by
        rw [← pow_succ']
        congr 1
        omega
      have h2 : (2 : Nat) ^ bitLen c * 2 ^ bitLen t ≤ 2 * (t * 2 ^ bitLen c) := by
        have h4 := Nat.mul_le_mul_right (2 ^ bitLen c) lt2
        calc (2 : Nat) ^ bitLen c * 2 ^ bitLen t
            = 2 * (2 ^ (bitLen t - 1) * 2 ^ bitLen c) := by rw [h3]; ring
          _ ≤ 2 * (t * 2 ^ bitLen c) := by omega
      omega
    have hsplit : (2 : Nat) ^ bitLen t =
        2 ^ (bitLen t - bitLen c) * 2 ^ bitLen c := by
      rw [← pow_add]
      congr 1
      omega
    rcases eq_or_lt_of_le hct with hEq | hlt
    · subst hEq
      rw [if_pos le_rfl]
      unfold fdiv64Core
      rw [if_neg (by omega)]
      rw [rneDiv_mul_left (2 ^ 52) (c * 2 ^ bitLen c) (by positivity)]
      exact valQ_le_of_le_pow (k := 52) le_rfl (by omega)
    · by_cases hbr : t * 2 ^ bitLen c ≤ c * 2 ^ bitLen t
      · rw [if_pos hbr]
        have hbclt : bitLen c < bitLen t := by
          rcases eq_or_lt_of_le hmono with hbe | hlt2
          · exfalso
            rw [hbe] at hbr
            have := Nat.le_of_mul_le_mul_right hbr (by positivity)
            omega
          · exact hlt2
        apply valQ_fdiv64Core_le ht hBpos
        · calc c * 2 ^ bitLen t * 2 ^ 52
              < 2 * (t * 2 ^ bitLen c) * 2 ^ 52 :=
                mul_lt_mul_of_pos_right hAB (by positivity)
            _ = 2 ^ 53 * (t * 2 ^ bitLen c) := by ring
        · omega
        · intro hs
          have hd1023 : 1023 ≤ bitLen t - bitLen c := by omega
          have h2 : c * 2 ^ (bitLen t - bitLen c) < 2 * t := by
            have h3 : c * 2 ^ (bitLen t - bitLen c) * 2 ^ bitLen c <
                2 * t * 2 ^ bitLen c := by
              calc c * 2 ^ (bitLen t - bitLen c) * 2 ^ bitLen c
                  = c * (2 ^ (bitLen t - bitLen c) * 2 ^ bitLen c) := by ring
                _ = c * 2 ^ bitLen t := by rw [← hsplit]
                _ < 2 * (t * 2 ^ bitLen c) := hAB
                _ = 2 * t * 2 ^ bitLen c := by ring
            exact lt_of_mul_lt_mul_right h3 (by positivity)
          have h5 : c * 2 ^ (bitLen t - bitLen c - 1) * 2 = c *
              2 ^ (bitLen t - bitLen c) := by
            rw [mul_assoc, ← pow_succ]
            congr 2
            omega
          have h6 : c * 2 ^ (bitLen t - bitLen c - 1) < t := by omega
          calc c * 2 ^ 1022 ≤ c * 2 ^ (bitLen t - bitLen c - 1) :=
                Nat.mul_le_mul_left c (Nat.pow_le_pow_right (by norm_num) (by omega))
            _ < t := h6
      · rw [if_neg hbr]
        push_neg at hbr
        apply valQ_fdiv64Core_le ht hBpos
        · calc 2 * (c * 2 ^ bitLen t) * 2 ^ 52
              < 2 * (t * 2 ^ bitLen c) * 2 ^ 52 := by
                apply mul_lt_mul_of_pos_right _ (by positivity)
                omega
            _ = 2 ^ 53 * (t * 2 ^ bitLen c) := by ring
        · omega
        · intro hs
          have hd1022 : 1022 ≤ bitLen t - bitLen c := by omega
          have h2 : c * 2 ^ (bitLen t - bitLen c) < t := by
            have h3 : c * 2 ^ (bitLen t - bitLen c) * 2 ^ bitLen c <
                t * 2 ^ bitLen c := by
              calc c * 2 ^ (bitLen t - bitLen c) * 2 ^ bitLen c
                  = c * (2 ^ (bitLen t - bitLen c) * 2 ^ bitLen c) := by ring
                _ = c * 2 ^ bitLen t := by rw [← hsplit]
                _ < t * 2 ^ bitLen c := hbr
            exact lt_of_mul_lt_mul_right h3 (by positivity)
          calc c * 2 ^ 1022 ≤ c * 2 ^ (bitLen t - bitLen c) :=
                Nat.mul_le_mul_left c (Nat.pow_le_pow_right (by norm_num) hd1022)
            _ < t := h2

theorem valQ_fmul100_le {p : Nat × Int} (hv : valQ p ≤ 1) :
    valQ (fmul100 p.1 p.2) ≤ 100 + 1 / 4 := by
  obtain ⟨m, g⟩ := p
  unfold valQ at hv
  dsimp only at hv
  unfold fmul100
  dsimp only
  by_cases hm : m = 0
  · subst hm
    unfold valQ
    dsimp only
    rw [Nat.zero_mul, rneDiv_zero_left]
    norm_num
  · have hm0 : 0 < m * 100 := by positivity
    obtain ⟨lmb, umb⟩ := bitLen_spec (m * 100) hm0
    have hvg : (0 : ℚ) < 2 ^ g := zpow_pos (by norm_num) g
    by_cases h53 : bitLen (m * 100) ≤ 53
    · have hs0 : bitLen (m * 100) - 53 = 0 := by omega
      rw [hs0]
      rw [pow_zero, rneDiv_one]
      unfold valQ
      dsimp only
      have hgz : (2 : ℚ) ^ (g + ((0 : Nat) : Int)) = 2 ^ g := by norm_num
      rw [hgz]
      push_cast
      calc (m : ℚ) * 100 * 2 ^ g = 100 * ((m : ℚ) * 2 ^ g) := by ring
        _ ≤ 100 * 1 := by nlinarith [hv]
        _ ≤ 100 + 1 / 4 := by norm_num
    · have hs1 : 54 ≤ bitLen (m * 100) := by omega
      have hint := rneDiv_le_int (m * 100) (2 ^ (bitLen (m * 100) - 53))
        (by positivity)
      have hpows : (2 : Nat) ^ (bitLen (m * 100) - 53) * 2 ^ 52 ≤ m * 100 := by
        calc (2 : Nat) ^ (bitLen (m * 100) - 53) * 2 ^ 52
            = 2 ^ (bitLen (m * 100) - 53 + 52) := by rw [← pow_add]
          _ = 2 ^ (bitLen (m * 100) - 1) := by congr 1; omega
          _ ≤ m * 100 := lmb
      unfold valQ
      dsimp only
      set s := bitLen (m * 100) - 53 with hs
      set n := rneDiv (m * 100) (2 ^ s) with hn
      have hintQ : 2 * (n : ℚ) * (2 : ℚ) ^ s ≤
          2 * ((m : ℚ) * 100) + (2 : ℚ) ^ s := by
        have h0 : ((2 * n * 2 ^ s : Nat) : ℚ) ≤
            ((2 * (m * 100) + 2 ^ s : Nat) : ℚ) := by exact_mod_cast hint
        push_cast at h0
        linarith
      have hpowsQ : (2 : ℚ) ^ s * 2 ^ 52 ≤ (m : ℚ) * 100 := by
        have h0 : ((2 ^ s * 2 ^ 52 : Nat) : ℚ) ≤ ((m * 100 : Nat) : ℚ) := by
          exact_mod_cast hpows
        push_cast at h0
        linarith
      have hzp : (2 : ℚ) ^ (g + (s : Int)) = 2 ^ g * (2 : ℚ) ^ s := by
        rw [zpow_add₀ (by norm_num : (2 : ℚ) ≠ 0)]
        congr 1
        exact zpow_natCast (2 : ℚ) s
      have hcast : ((2 ^ s : Nat) : ℚ) = (2 : ℚ) ^ s := by push_cast; ring
      rw [hzp]
      have hS : (0 : ℚ) < (2 : ℚ) ^ s := by positivity
      have h1 : (n : ℚ) * (2 : ℚ) ^ s ≤
          (m : ℚ) * 100 + (2 : ℚ) ^ s / 2 := by linarith
      have h2 : (2 : ℚ) ^ s / 2 ≤ (m : ℚ) * 100 / 2 ^ 53 := by
        rw [div_le_div_iff (by norm_num) (by norm_num)]
        nlinarith [hpowsQ]
      have h3 : (n : ℚ) * (2 : ℚ) ^ s ≤
          (m : ℚ) * 100 * (1 + (1 : ℚ) / 2 ^ 53) := by
        calc (n : ℚ) * (2 : ℚ) ^ s
            ≤ (m : ℚ) * 100 + (2 : ℚ) ^ s / 2 := h1
          _ ≤ (m : ℚ) * 100 + (m : ℚ) * 100 / 2 ^ 53 := by linarith
          _ = (m : ℚ) * 100 * (1 + (1 : ℚ) / 2 ^ 53) := by ring
      calc (n : ℚ) * (2 ^ g * (2 : ℚ) ^ s)
          = ((n : ℚ) * (2 : ℚ) ^ s) * 2 ^ g := by ring
        _ ≤ ((m : ℚ) * 100 * (1 + (1 : ℚ) / 2 ^ 53)) * 2 ^ g :=
            mul_le_mul_of_nonneg_right h3 (le_of_lt hvg)
        _ = 100 * (1 + (1 : ℚ) / 2 ^ 53) * ((m : ℚ) * 2 ^ g) := by ring
        _ ≤ 100 * (1 + (1 : ℚ) / 2 ^ 53) * 1 := by
            apply mul_le_mul_of_nonneg_left hv (by norm_num)
        _ ≤ 100 + 1 / 4 := by norm_num

theorem jsMathRound_le_of_val {m : Nat} {g : Int}
    (hv : valQ (m, g) ≤ 100 + 1 / 4) : jsMathRound m g ≤ 100 := by
  unfold valQ at hv
  dsimp only at hv
  unfold jsMathRound
  by_cases hg : 0 ≤ g
  · rw [if_pos hg]
    by_contra hc
    push_neg at hc
    have h1 : (101 : ℚ) ≤ ((m * 2 ^ g.toNat : Nat) : ℚ) := by exact_mod_cast hc
    have h2 : ((m * 2 ^ g.toNat : Nat) : ℚ) = (m : ℚ) * 2 ^ g := by
      push_cast
      rw [← zpow_natCast (2 : ℚ) g.toNat, Int.toNat_of_nonneg hg]
    linarith
  · rw [if_neg hg]
    dsimp only
    have hd : (0 : ℚ) < ((2 ^ (-g).toNat : Nat) : ℚ) := by positivity
    have h2 : (m : ℚ) * 2 ^ g = (m : ℚ) / ((2 ^ (-g).toNat : Nat) : ℚ) := by
      have hgg : g = -(((-g).toNat : Nat) : Int) := by omega
      rw [hgg, zpow_neg, zpow_natCast]
      push_cast
      rw [neg_neg, Int.toNat_natCast]
      ring
    rw [h2] at hv
    rw [div_le_iff hd] at hv
    have h4 : 4 * m ≤ 401 * 2 ^ (-g).toNat := by
      have h5 : (4 * m : ℚ) ≤ 401 * ((2 ^ (-g).toNat : Nat) : ℚ) := by
        push_cast at hv ⊢
        linarith
      exact_mod_cast h5
    have hb : 0 < 2 ^ (-g).toNat := by positivity
    have h6 : 2 * m + 2 ^ (-g).toNat < 101 * (2 * 2 ^ (-g).toNat) := by omega
    have h7 : (2 * m + 2 ^ (-g).toNat) / (2 * 2 ^ (-g).toNat) < 101 :=
      (Nat.div_lt_iff_lt_mul
        (by positivity : 0 < 2 * 2 ^ (-g).toNat)).mpr (by omega)
    omega

theorem jsCompletionRate_le (c t : Nat) (hc : c ≤ t) (ht : 0 < t) :
    jsCompletionRate c t ≤ 100 := by
  unfold jsCompletionRate
  exact jsMathRound_le_of_val (valQ_fmul100_le (valQ_fdiv64_le_one hc ht))

theorem getAnalytics_completionRate (tasks : List Task) (today : Str) :
    (getAnalytics tasks today).completionRate =
      if tasks.length = 0 then 0
      else jsCompletionRate ((getAnalytics tasks today).completed)
        tasks.length := rfl

/-- Done task used in the 23-of-40 counterexample list. -/
def c9DoneTask : Task :=
  { id := 1, title := ("d".toList), body := [], status := ("done".toList),
    priority := ("medium".toList), due_date := none, labels := [],
    assignee := none, sprint_id := none, sprint_name := none, my_day := false,
    estimated_hours := .vInt 0, actual_hours := .vInt 0, tags := .vList [],
    parent_task := none, created_at := [], updated_at := [], html_url := [] }

/-- Todo task used in the 23-of-40 counterexample list. -/
def c9TodoTask : Task :=
  { c9DoneTask with
    id := 2
    status := ("todo".toList) }

/-- Forty tasks of which 23 are done: the input where the float and the
exact completion rate disagree. -/
def c9Tasks : List Task :=
  List.replicate 23 c9DoneTask ++ List.replicate 17 c9TodoTask

/-- C9 counterexample: at 23 completed among 40 tasks the program computes
the rate on binary64 doubles — `(23/40)*100` evaluates to the double just
below 57.5 (57.49999999999999289…), whose `Math.round` is 57 — while the
claim's formula `round(done / total × 100) = round(57.5)` gives 58. -/
theorem c9_completion_rate_not_exact_round :
    (getAnalytics c9Tasks ("2026-01-01".toList)).total = 40 ∧
    (getAnalytics c9Tasks ("2026-01-01".toList)).completed = 23 ∧
    (getAnalytics c9Tasks ("2026-01-01".toList)).completionRate = 57 ∧
    specRound100 23 40 = 58 := by
  decide

/-- C9 (amended): the completion counter equals the number of done tasks;
an empty list yields rate 0 through the guarded branch (no division by
zero); otherwise the rate is `Math.round` applied to the binary64 evaluation
of `(completed / total) * 100` — which can differ by one from exact rational
rounding, as at 23 done of 40 — and the rate never exceeds 100. -/
theorem c9_completion_rate_amended :
    ∀ (tasks : List Task) (today : Str),
      (getAnalytics tasks today).completed =
        tasks.countP (fun t => decide (t.status = ("done".toList))) ∧
      (tasks = [] → (getAnalytics tasks today).completionRate = 0) ∧
      (getAnalytics tasks today).completionRate ≤ 100 ∧
      (¬ tasks = [] → (getAnalytics tasks today).completionRate =
        jsCompletionRate
          (tasks.countP (fun t => decide (t.status = ("done".toList))))
          tasks.length) := by
  intro tasks today
  have hcomp : (getAnalytics tasks today).completed =
      tasks.countP (fun t => decide (t.status = ("done".toList))) := by
    show countLookup
        (tasks.foldl (fun m t => bumpCount m t.status) initStatusCounts)
        ("done".toList) = _
    rw [← List.foldl_map (fun t : Task => t.status) bumpCount tasks
      initStatusCounts]
    rw [countLookup_foldl_bump]
    have h0 : countLookup initStatusCounts ("done".toList) = 0 := by decide
    rw [h0, List.countP_map, Nat.zero_add]
    rfl
  refine ⟨hcomp, ?_, ?_, ?_⟩
  · rintro rfl
    rfl
  · rw [getAnalytics_completionRate]
    by_cases h0 : tasks.length = 0
    · simp [h0]
    · rw [if_neg h0]
      refine jsCompletionRate_le _ _ ?_ (Nat.pos_of_ne_zero h0)
      rw [hcomp]
      exact List.countP_le_length _
  · intro h
    rw [getAnalytics_completionRate,
      if_neg (fun hl => h (List.length_eq_zero.mp hl)), hcomp]

/-- Witness for the amended C9 theorem: the empty task list yields
completion rate 0. -/
theorem c9_completion_rate_amended_witness :
    (getAnalytics [] ("2026-01-01".toList)).completionRate = 0 :=
  (c9_completion_rate_amended [] ("2026-01-01".toList)).2.1 rfl

theorem count_filter_neg {p : Task → Bool} {x : Task} (hx : p x = false)
    (l : List Task) : (l.filter p).count x = 0 :=
  List.count_eq_zero.mpr fun hmem => by
    have h2 := (List.mem_filter.mp hmem).2
    rw [hx] at h2
    cases h2

/-- C10: the board grouping is an exact cover of the listed tasks: every
task produced by the listing pipeline carries one of the four statuses (the
label mapper always yields one), each board column is exactly the sublist of
tasks with that status, the four columns together are a permutation of the
input list, and every listed task lies in the column of its status and in no
other. -/
theorem c10_board_exact_cover :
    ∀ (issues : List GhIssue) (ts : List Task) (b : BoardColumns),
      ts = listTasksLocal issues false →
      b = boardColumns ts →
      (∀ t ∈ ts, t.status ∈ statusKeys) ∧
      b.todo = ts.filter (fun t => decide (t.status = ("todo".toList))) ∧
      b.in_progress =
        ts.filter (fun t => decide (t.status = ("in-progress".toList))) ∧
      b.blocked = ts.filter (fun t => decide (t.status = ("blocked".toList))) ∧
      b.done = ts.filter (fun t => decide (t.status = ("done".toList))) ∧
      (b.todo ++ b.in_progress ++ b.blocked ++ b.done).Perm ts ∧
      (∀ t ∈ ts,
        (t.status = ("todo".toList) →
          t ∈ b.todo ∧ t ∉ b.in_progress ∧ t ∉ b.blocked ∧ t ∉ b.done) ∧
        (t.status = ("in-progress".toList) →
          t ∈ b.in_progress ∧ t ∉ b.todo ∧ t ∉ b.blocked ∧ t ∉ b.done) ∧
        (t.status = ("blocked".toList) →
          t ∈ b.blocked ∧ t ∉ b.todo ∧ t ∉ b.in_progress ∧ t ∉ b.done) ∧
        (t.status = ("done".toList) →
          t ∈ b.done ∧ t ∉ b.todo ∧ t ∉ b.in_progress ∧ t ∉ b.blocked)) := by
  intro issues ts b hts hb
  have hfour : ∀ t ∈ ts, t.status ∈ statusKeys := by
    intro t ht
    rw [hts] at ht
    obtain ⟨⟨i, hi, htp, hit⟩, -⟩ := mem_listTasksLocal.mp ht
    rw [← hit]
    exact getStatusFromLabels_mem _
  subst hb
  unfold boardColumns
  obtain ⟨h1, h2, h3, h4⟩ := foldl_boardStep_fields ts ⟨[], [], [], []⟩
  simp only [List.nil_append] at h1 h2 h3 h4
  rw [h1, h2, h3, h4]
  have hmem : ∀ (t : Task) (c : Str),
      t ∈ ts.filter (fun t => decide (t.status = c)) ↔
        t ∈ ts ∧ t.status = c := by
    intro t c
    rw [List.mem_filter]
    simp
  refine ⟨hfour, rfl, rfl, rfl, rfl, ?_, ?_⟩
  · rw [List.perm_iff_count]
    intro x
    simp only [List.count_append]
    by_cases hx : x ∈ ts
    · have hst := hfour x hx
      simp only [statusKeys, statusLabels, List.map_cons, List.map_nil,
        List.mem_cons, List.not_mem_nil, or_false] at hst
      rcases hst with hs | hs | hs | hs
      · rw [List.count_filter (by simp only [hs]; decide),
          count_filter_neg (by simp only [hs]; decide),
          count_filter_neg (by simp only [hs]; decide),
          count_filter_neg (by simp only [hs]; decide)]
        omega
      · rw [count_filter_neg (by simp only [hs]; decide),
          List.count_filter (by simp only [hs]; decide),
          count_filter_neg (by simp only [hs]; decide),
          count_filter_neg (by simp only [hs]; decide)]
        omega
      · rw [count_filter_neg (by simp only [hs]; decide),
          count_filter_neg (by simp only [hs]; decide),
          count_filter_neg (by simp only [hs]; decide),
          List.count_filter (by simp only [hs]; decide)]
        omega
      · rw [count_filter_neg (by simp only [hs]; decide),
          count_filter_neg (by simp only [hs]; decide),
          List.count_filter (by simp only [hs]; decide),
          count_filter_neg (by simp only [hs]; decide)]
        omega
    · have h0 : ts.count x = 0 := List.count_eq_zero.mpr hx
      have hfil : ∀ p : Task → Bool, (ts.filter p).count x = 0 := fun p =>
        List.count_eq_zero.mpr fun hm => hx (List.mem_filter.mp hm).1
      simp [h0, hfil]
  · intro t ht
    refine ⟨?_, ?_, ?_, ?_⟩ <;> intro hs <;>
      refine ⟨(hmem t _).mpr ⟨ht, hs⟩, ?_, ?_, ?_⟩ <;>
      intro hm <;>
      have h5 := ((hmem t _).mp hm).2 <;>
      rw [hs] at h5 <;>
      exact absurd h5 (by decide)

/-- Issue used to exercise the board exact-cover theorem at a concrete
store. -/
def c10Issue : GhIssue :=
  { number := 3, title := ("t".toList), body := none,
    labels := [.named ("tp:todo".toList)], assignees := [], assignee := none,
    milestoneNumber := none, milestoneTitle := none,
    state := ("open".toList), stateReason := none, createdAt := none,
    created_at := none, updatedAt := none, updated_at := none,
    html_url := none, url := none }

/-- Witness for C10: its permutation clause at a concrete one-record
store. -/
theorem c10_board_exact_cover_witness :
    ((boardColumns (listTasksLocal [c10Issue] false)).todo ++
        (boardColumns (listTasksLocal [c10Issue] false)).in_progress ++
        (boardColumns (listTasksLocal [c10Issue] false)).blocked ++
        (boardColumns (listTasksLocal [c10Issue] false)).done).Perm
      (listTasksLocal [c10Issue] false) :=
  (c10_board_exact_cover [c10Issue] (listTasksLocal [c10Issue] false)
    (boardColumns (listTasksLocal [c10Issue] false)) rfl rfl).2.2.2.2.2.1

end TaskPlanner
